import Mathlib

/-!
A shallow embedding of `bench.go`, a concurrent query-latency benchmarking
harness (hash-partitioned worker pool, fan-in result collection, streaming
min/max/total plus sort-for-median aggregation), together with proofs of the
specification's claims about it.

Modelling conventions:
* Go `int64` / `int` values are modelled as `Int` (the quantities involved are
  query latencies in microseconds and small counters; the claims under study
  do not concern 64-bit wraparound), except where 32-bit hash arithmetic
  matters, which is carried out in `Nat` with explicit `% 2^32`.
* Go's truncated division and modulus on integers are `Int.tdiv` / `Int.tmod`.
* A fallible query execution is a function into `Option`: `none` is an error
  return, `some d` a success with latency `d`.
* The concurrent pipeline is modelled by making the nondeterministic arrival
  order of samples at the collector an arbitrary interleaving, i.e. any list
  that is a permutation of the concatenated per-worker output sequences.
-/

namespace Bench

/-- UTF-8 encoding of one Unicode code point as its list of byte values.
Models Go's `[]byte(hostname)` conversion of a string to its UTF-8 bytes. -/
def utf8Bytes (c : Nat) : List Nat :=
  if c < 128 then [c]
  else if c < 2048 then [192 + c / 64, 128 + c % 64]
  else if c < 65536 then [224 + c / 4096, 128 + (c / 64) % 64, 128 + c % 64]
  else [240 + c / 262144, 128 + (c / 4096) % 64, 128 + (c / 64) % 64,
        128 + c % 64]

/-- The UTF-8 byte sequence of a string. -/
def strBytes (s : String) : List Nat :=
  (s.data.map (fun c => utf8Bytes c.toNat)).flatten

/-- The 32-bit FNV-1a hash: `h := fnv.New32a(); h.Write(bytes); h.Sum32()`
(offset basis 2166136261, prime 16777619, arithmetic modulo 2^32). -/
def fnv32a (bytes : List Nat) : Nat :=
  bytes.foldl (fun h b => (Nat.xor h b) * 16777619 % 4294967296) 2166136261

/-- Go's `/` on integers: truncated (round-toward-zero) division. -/
def goDiv (a b : Int) : Int := Int.tdiv a b

/-- Go's `%` on integers: truncated modulus (sign follows the dividend). -/
def goMod (a b : Int) : Int := Int.tmod a b

/-- `processCSV`'s worker selection for a record's hostname:
`int(h.Sum32()) % numWorkers`.  The `int` conversion of the `uint32` hash is
value-preserving (64-bit `int`), and `%` is Go's truncated modulus. -/
def chosenWorker (hostname : String) (numWorkers : Nat) : Int :=
  goMod (Int.ofNat (fnv32a (strBytes hostname))) (Int.ofNat numWorkers)

/-- The same worker index as a natural number (see
`chosenWorker_eq_ofNat`). -/
def chosenWorkerN (hostname : String) (numWorkers : Nat) : Nat :=
  fnv32a (strBytes hostname) % numWorkers

/-- One input record turned into a unit of work (`type task` in bench.go). -/
structure Task where
  hostname : String
  start : String
  «end» : String
deriving DecidableEq, Repr

/-- The outcome of one `QueryExecutor` invocation for a task: `none` models
an error returned by `dbPool.QueryRow(...).Scan(...)`, `some d` a success
whose measured wall-clock latency is `d` microseconds. -/
abbrev QueryExecutor : Type := Task → Option Int

/-- The worker loop (`func worker`): pull tasks from the queue in order; on a
query error, log and `continue`; on success, send a `benchResult` carrying
the elapsed microseconds.  The returned list is the sequence of samples this
worker emits on the shared `results` channel, in emission order. -/
def worker (exec : QueryExecutor) : List Task → List Int
  | [] => []
  | q :: rest =>
    match exec q with
    | none => worker exec rest
    | some delta => delta :: worker exec rest

/-- The sub-sequence of tasks that `processCSV` routes to worker `w`:
hash-partitioning preserves input order within each queue. -/
def workerQueue (tasks : List Task) (numWorkers w : Nat) : List Task :=
  tasks.filter (fun t => chosenWorkerN t.hostname numWorkers == w)

/-- All samples produced by a run with `numWorkers` workers over `tasks`,
as the concatenation of the per-worker output sequences (worker 0 first).
The collector observes these in some interleaving, i.e. some permutation of
this list. -/
def runOutputs (exec : QueryExecutor) (tasks : List Task)
    (numWorkers : Nat) : List Int :=
  ((List.range numWorkers).map
    (fun w => worker exec (workerQueue tasks numWorkers w))).flatten

/-- The collector's mutable state in `main`: the retained sample list
`queryTimes` and the running total/min/max. -/
structure CollectState where
  queryTimes : List Int
  totalQueryTime : Int
  minQueryTime : Int
  maxQueryTime : Int
deriving DecidableEq, Repr

/-- One iteration of the collection select-loop on receiving result `r`:
append to `queryTimes`, add to the total, and update min/max with the
else-if comparison from bench.go lines 208-212 (a sample below the current
min is never compared against the max). -/
def collectStep (st : CollectState) (r : Int) : CollectState :=
  { queryTimes := st.queryTimes ++ [r]
    totalQueryTime := st.totalQueryTime + r
    minQueryTime := if r < st.minQueryTime then r else st.minQueryTime
    maxQueryTime :=
      if r < st.minQueryTime then st.maxQueryTime
      else if r > st.maxQueryTime then r else st.maxQueryTime }

/-- The collector state right after `firstResult := <-results`
(bench.go lines 195-200): the first sample initialises every accumulator. -/
def initState (firstResult : Int) : CollectState :=
  { queryTimes := [firstResult]
    totalQueryTime := firstResult
    minQueryTime := firstResult
    maxQueryTime := firstResult }

/-- The collector state after the select-loop has consumed the remaining
samples `rest`, in arrival order. -/
def collectLoop (firstResult : Int) (rest : List Int) : CollectState :=
  rest.foldl collectStep (initState firstResult)

/-- `sort.Slice(queryTimes, ...)` with `queryTimes[i] < queryTimes[j]`:
the ascending sort of the retained samples.  Go's sort is unstable, but on a
list of integer values the ascending reordering is unique, so any correct
sort models it. -/
def sortedTimes (l : List Int) : List Int := List.insertionSort (· ≤ ·) l

/-- The final printed summary (count, total, min, max, median), in
microseconds as accumulated internally; `main` prints each divided by 1000.
The mean is printed as `total / count / 1000` and is not stored. -/
structure Report where
  count : Nat
  totalQueryTime : Int
  minQueryTime : Int
  maxQueryTime : Int
  medianQueryTime : Int
deriving DecidableEq, Repr

/-- The median computation of bench.go lines 222-230 on the retained list:
sort ascending; for even length `n` take the truncated mean of the entries
at `n/2 - 1` and `n/2`, for odd length the entry at `n/2`. -/
def medianOf (l : List Int) : Int :=
  let s := sortedTimes l
  let n := s.length
  if n % 2 = 0 then goDiv (s.getD (n / 2 - 1) 0 + s.getD (n / 2) 0) 2
  else s.getD (n / 2) 0

/-- The collector (`main`, bench.go lines 192-238) as a function of the full
sequence of samples it receives, in arrival order.  The initial receive
`firstResult := <-results` happens before the select-loop: when no sample is
ever sent, `main` blocks on that receive forever (while `processCSV` blocks
sending on `done`), so no summary is produced — modelled by `none`. -/
def collect : List Int → Option Report
  | [] => none
  | firstResult :: rest =>
    let st := collectLoop firstResult rest
    some
      { count := st.queryTimes.length
        totalQueryTime := st.totalQueryTime
        minQueryTime := st.minQueryTime
        maxQueryTime := st.maxQueryTime
        medianQueryTime := medianOf st.queryTimes }

/-- `processCSV`'s input phase (bench.go lines 87-118) on the record stream:
the first `cr.Read()` consumes the header, and on an empty stream it returns
`io.EOF`, which `log.Fatalf` turns into a fatal abort (`Except.error`)
before any task is dispatched.  Each later record must have the header's
field count (`encoding/csv` enforces this) and fields 0, 1, 2 become the
task's hostname, start and end. -/
def readTasks : List (List String) → Except String (List Task)
  | [] => Except.error "Error when reading CSV header"
  | header :: rows =>
    rows.mapM (fun r =>
      if r.length ≠ header.length then Except.error "Failed parsing CSV file"
      else if r.length < 3 then Except.error "index out of range"
      else Except.ok
        { hostname := r.getD 0 "", start := r.getD 1 "", «end» := r.getD 2 "" })

/-! ### Helper lemmas -/

/-- The worker loop keeps exactly the successful samples, in task order. -/
theorem worker_eq_filterMap (exec : QueryExecutor) (tasks : List Task) :
    worker exec tasks = tasks.filterMap exec := by
  induction tasks with
  | nil => rfl
  | cons q rest ih =>
    cases h : exec q <;> simp [worker, List.filterMap_cons, h, ih]

/-- The min update of the select-loop is the two-argument minimum. -/
theorem collectStep_min (st : CollectState) (r : Int) :
    (collectStep st r).minQueryTime = min st.minQueryTime r := by
  simp only [collectStep]
  rcases lt_or_le r st.minQueryTime with h | h
  · simp [h, min_eq_right h.le]
  · simp [not_lt.mpr h, min_eq_left h]

/-- As long as the running min does not exceed the running max, the else-if
max update of the select-loop computes the two-argument maximum: a sample
below the current min can never be above the current max. -/
theorem collectStep_max (st : CollectState) (r : Int)
    (h : st.minQueryTime ≤ st.maxQueryTime) :
    (collectStep st r).maxQueryTime = max st.maxQueryTime r := by
  simp only [collectStep]
  rcases lt_or_le r st.minQueryTime with hr | hr
  · have hrm : r ≤ st.maxQueryTime := le_trans hr.le h
    simp [hr, max_eq_left hrm]
  · rcases lt_or_le st.maxQueryTime r with hm | hm
    · simp [not_lt.mpr hr, hm, max_eq_right hm.le]
    · simp [not_lt.mpr hr, not_lt.mpr hm, max_eq_left hm]

/-- Full characterisation of the collection fold from any state whose min is
at most its max: samples are appended in order, the total accumulates the
sum, and min/max are the folded two-argument minima/maxima. -/
theorem collectFold_spec (l : List Int) : ∀ st : CollectState,
    st.minQueryTime ≤ st.maxQueryTime →
    (l.foldl collectStep st).queryTimes = st.queryTimes ++ l ∧
    (l.foldl collectStep st).totalQueryTime = st.totalQueryTime + l.sum ∧
    (l.foldl collectStep st).minQueryTime = l.foldl min st.minQueryTime ∧
    (l.foldl collectStep st).maxQueryTime = l.foldl max st.maxQueryTime ∧
    (l.foldl collectStep st).minQueryTime ≤ (l.foldl collectStep st).maxQueryTime := by
  induction l with
  | nil => intro st h; simpa using h
  | cons r rest ih =>
    intro st h
    have hmin := collectStep_min st r
    have hmax := collectStep_max st r h
    have hle : (collectStep st r).minQueryTime ≤ (collectStep st r).maxQueryTime := by
      rw [hmin, hmax]
      exact le_trans (min_le_left _ _) (le_trans h (le_max_left _ _))
    obtain ⟨h1, h2, h3, h4, h5⟩ := ih (collectStep st r) hle
    refine ⟨?_, ?_, ?_, ?_, h5⟩
    · rw [List.foldl_cons, h1]
      simp [collectStep]
    · rw [List.foldl_cons, h2]
      simp only [collectStep, List.sum_cons]
      ring
    · rw [List.foldl_cons, h3, hmin, List.foldl_cons]
    · rw [List.foldl_cons, h4, hmax, List.foldl_cons]

/-- A left fold of `min` never exceeds its seed nor any list element. -/
theorem foldl_min_le (l : List Int) : ∀ a : Int,
    l.foldl min a ≤ a ∧ ∀ x ∈ l, l.foldl min a ≤ x := by
  induction l with
  | nil => intro a; exact ⟨le_refl a, by simp⟩
  | cons b rest ih =>
    intro a
    obtain ⟨h1, h2⟩ := ih (min a b)
    refine ⟨le_trans h1 (min_le_left a b), ?_⟩
    intro x hx
    rcases List.mem_cons.mp hx with rfl | hx
    · exact le_trans h1 (min_le_right a x)
    · exact h2 x hx

/-- A left fold of `min` returns its seed or some list element. -/
theorem foldl_min_mem (l : List Int) : ∀ a : Int,
    l.foldl min a = a ∨ l.foldl min a ∈ l := by
  induction l with
  | nil => intro a; exact Or.inl rfl
  | cons b rest ih =>
    intro a
    rw [List.foldl_cons]
    rcases ih (min a b) with h | h
    · rcases min_choice a b with hc | hc
      · exact Or.inl (by rw [h, hc])
      · refine Or.inr ?_
        rw [h, hc]
        exact List.mem_cons_self b rest
    · exact Or.inr (List.mem_cons_of_mem b h)

/-- A left fold of `max` is at least its seed and every list element. -/
theorem foldl_max_le (l : List Int) : ∀ a : Int,
    a ≤ l.foldl max a ∧ ∀ x ∈ l, x ≤ l.foldl max a := by
  induction l with
  | nil => intro a; exact ⟨le_refl a, by simp⟩
  | cons b rest ih =>
    intro a
    obtain ⟨h1, h2⟩ := ih (max a b)
    refine ⟨le_trans (le_max_left a b) h1, ?_⟩
    intro x hx
    rcases List.mem_cons.mp hx with rfl | hx
    · exact le_trans (le_max_right a x) h1
    · exact h2 x hx

/-- A left fold of `max` returns its seed or some list element. -/
theorem foldl_max_mem (l : List Int) : ∀ a : Int,
    l.foldl max a = a ∨ l.foldl max a ∈ l := by
  induction l with
  | nil => intro a; exact Or.inl rfl
  | cons b rest ih =>
    intro a
    rw [List.foldl_cons]
    rcases ih (max a b) with h | h
    · rcases max_choice a b with hc | hc
      · exact Or.inl (by rw [h, hc])
      · refine Or.inr ?_
        rw [h, hc]
        exact List.mem_cons_self b rest
    · exact Or.inr (List.mem_cons_of_mem b h)

/-- The folded minimum lies in `a :: l`. -/
theorem foldl_min_mem_cons (l : List Int) (a : Int) :
    l.foldl min a ∈ a :: l := by
  rcases foldl_min_mem l a with h | h
  · rw [h]
    exact List.mem_cons_self a l
  · exact List.mem_cons_of_mem a h

/-- The folded minimum is a lower bound of `a :: l`. -/
theorem foldl_min_lb (l : List Int) (a : Int) :
    ∀ x ∈ a :: l, l.foldl min a ≤ x := by
  intro x hx
  obtain ⟨h1, h2⟩ := foldl_min_le l a
  rcases List.mem_cons.mp hx with rfl | hx
  · exact h1
  · exact h2 x hx

/-- The folded maximum lies in `a :: l`. -/
theorem foldl_max_mem_cons (l : List Int) (a : Int) :
    l.foldl max a ∈ a :: l := by
  rcases foldl_max_mem l a with h | h
  · rw [h]
    exact List.mem_cons_self a l
  · exact List.mem_cons_of_mem a h

/-- The folded maximum is an upper bound of `a :: l`. -/
theorem foldl_max_ub (l : List Int) (a : Int) :
    ∀ x ∈ a :: l, x ≤ l.foldl max a := by
  intro x hx
  obtain ⟨h1, h2⟩ := foldl_max_le l a
  rcases List.mem_cons.mp hx with rfl | hx
  · exact h1
  · exact h2 x hx

/-- Folded minima agree on permuted nonempty lists. -/
theorem foldl_min_perm {a b : Int} {l1 l2 : List Int}
    (h : (a :: l1).Perm (b :: l2)) : l1.foldl min a = l2.foldl min b := by
  apply le_antisymm
  · exact foldl_min_lb l1 a _ (h.symm.mem_iff.mp (foldl_min_mem_cons l2 b))
  · exact foldl_min_lb l2 b _ (h.mem_iff.mp (foldl_min_mem_cons l1 a))

/-- Folded maxima agree on permuted nonempty lists. -/
theorem foldl_max_perm {a b : Int} {l1 l2 : List Int}
    (h : (a :: l1).Perm (b :: l2)) : l1.foldl max a = l2.foldl max b := by
  apply le_antisymm
  · exact foldl_max_ub l2 b _ (h.mem_iff.mp (foldl_max_mem_cons l1 a))
  · exact foldl_max_ub l1 a _ (h.symm.mem_iff.mp (foldl_max_mem_cons l2 b))

/-- Sorting is determined by the multiset of values: permuted inputs sort to
the same list. -/
theorem sortedTimes_perm_eq {l1 l2 : List Int} (h : l1.Perm l2) :
    sortedTimes l1 = sortedTimes l2 :=
  List.eq_of_perm_of_sorted
    (((List.perm_insertionSort _ l1).trans h).trans
      (List.perm_insertionSort _ l2).symm)
    (List.sorted_insertionSort _ l1) (List.sorted_insertionSort _ l2)

/-- Closed form of the collector on a nonempty arrival sequence. -/
theorem collect_cons (firstResult : Int) (rest : List Int) :
    collect (firstResult :: rest) = some
      { count := (firstResult :: rest).length
        totalQueryTime := (firstResult :: rest).sum
        minQueryTime := rest.foldl min firstResult
        maxQueryTime := rest.foldl max firstResult
        medianQueryTime := medianOf (firstResult :: rest) } := by
  obtain ⟨h1, h2, h3, h4, h5⟩ :=
    collectFold_spec rest (initState firstResult) (le_refl _)
  have ht : (collectLoop firstResult rest).queryTimes = firstResult :: rest := by
    rw [collectLoop, h1]
    rfl
  simp only [collect, Option.some.injEq, Report.mk.injEq]
  refine ⟨?_, ?_, ?_, ?_, ?_⟩
  · rw [ht]
  · rw [collectLoop, h2]
    simp [initState]
  · rw [collectLoop, h3]
    rfl
  · rw [collectLoop, h4]
    rfl
  · rw [ht]

/-- The collector's report depends only on the multiset of samples, not on
the order in which they arrive. -/
theorem collect_perm_eq {l1 l2 : List Int} (h : l1.Perm l2) :
    collect l1 = collect l2 := by
  cases l1 with
  | nil =>
    cases l2 with
    | nil => rfl
    | cons b t2 => exact absurd h.length_eq (by simp)
  | cons a t1 =>
    cases l2 with
    | nil => exact absurd h.length_eq (by simp)
    | cons b t2 =>
      rw [collect_cons, collect_cons]
      have hmed : medianOf (a :: t1) = medianOf (b :: t2) := by
        unfold medianOf
        rw [sortedTimes_perm_eq h]
      rw [h.length_eq, h.sum_eq, foldl_min_perm h, foldl_max_perm h, hmed]

/-- In a sum over `List.range n` of a single-spike function whose spike `i`
lies at or beyond `n`, every term vanishes. -/
theorem sum_map_range_ite_zero (c i : Nat) : ∀ n, n ≤ i →
    ((List.range n).map (fun w => if i = w then c else 0)).sum = 0 := by
  intro n
  induction n with
  | zero => intro _; rfl
  | succ m ih =>
    intro h
    rw [List.range_succ, List.map_append, List.sum_append]
    have h2 : i ≠ m := by omega
    simp [ih (by omega), h2]

/-- Summing a single-spike function over `List.range n` picks out the spike
value when the spike lies below `n`. -/
theorem sum_map_range_ite (c i n : Nat) (h : i < n) :
    ((List.range n).map (fun w => if i = w then c else 0)).sum = c := by
  induction n with
  | zero => omega
  | succ m ih =>
    rw [List.range_succ, List.map_append, List.sum_append]
    rcases Nat.lt_or_ge i m with hi | hi
    · have h2 : i ≠ m := by omega
      simp [ih hi, h2]
    · have h3 : i = m := by omega
      rw [sum_map_range_ite_zero c i m (by omega)]
      simp [h3]

/-- Binning a list by a function with range below `n` and concatenating the
bins in index order permutes the original list. -/
theorem flatten_filter_perm (f : Task → Nat) (n : Nat) (hf : ∀ t, f t < n)
    (l : List Task) :
    (((List.range n).map (fun w => l.filter (fun t => f t == w))).flatten).Perm
      l := by
  rw [List.perm_iff_count]
  intro a
  rw [List.count_flatten, List.map_map]
  have hcount : ∀ w, List.count a (l.filter (fun t => f t == w)) =
      if f a = w then List.count a l else 0 := by
    intro w
    rcases Decidable.em (f a = w) with h | h
    · rw [if_pos h]
      exact List.count_filter (by simp [h])
    · rw [if_neg h]
      refine List.count_eq_zero.mpr ?_
      intro hmem
      have hp := List.of_mem_filter hmem
      simp only [beq_iff_eq] at hp
      exact h hp
  have hmap : (List.range n).map
        ((fun m => List.count a m) ∘ fun w => l.filter (fun t => f t == w)) =
      (List.range n).map (fun w => if f a = w then List.count a l else 0) :=
    List.map_congr_left (fun w _ => hcount w)
  rw [hmap, sum_map_range_ite _ _ _ (hf a)]

/-- The Go worker index agrees with its natural-number form: the `uint32`
hash is non-negative, so truncated modulus is ordinary remainder. -/
theorem chosenWorker_eq_ofNat (hostname : String) (numWorkers : Nat) :
    chosenWorker hostname numWorkers =
      Int.ofNat (chosenWorkerN hostname numWorkers) := rfl

/-- All samples of an `n`-worker run form a permutation of the samples of a
single pass over the tasks in input order. -/
theorem runOutputs_perm (exec : QueryExecutor) (tasks : List Task) (n : Nat)
    (hn : 1 ≤ n) :
    (runOutputs exec tasks n).Perm (tasks.filterMap exec) := by
  unfold runOutputs workerQueue
  have hmap : (List.range n).map
        (fun w => worker exec
          (tasks.filter (fun t => chosenWorkerN t.hostname n == w))) =
      (List.range n).map
        (fun w => List.filterMap exec
          (tasks.filter (fun t => chosenWorkerN t.hostname n == w))) :=
    List.map_congr_left (fun w _ => worker_eq_filterMap _ _)
  rw [hmap]
  have hunfuse : (List.range n).map
        (fun w => List.filterMap exec
          (tasks.filter (fun t => chosenWorkerN t.hostname n == w))) =
      ((List.range n).map
        (fun w => tasks.filter (fun t => chosenWorkerN t.hostname n == w))).map
        (List.filterMap exec) := by
    rw [List.map_map]
    rfl
  rw [hunfuse, ← List.filterMap_flatten]
  exact List.Perm.filterMap exec
    (flatten_filter_perm (fun t => chosenWorkerN t.hostname n) n
      (fun t => Nat.mod_lt _ hn) tasks)

/-- The number of successful samples equals the number of tasks whose
execution succeeds. -/
theorem length_filterMap_eq_length_filter (exec : QueryExecutor)
    (tasks : List Task) :
    (tasks.filterMap exec).length =
      (tasks.filter (fun t => (exec t).isSome)).length := by
  induction tasks with
  | nil => rfl
  | cons q rest ih =>
    cases h : exec q <;>
      simp [List.filterMap_cons, List.filter_cons, h, ih]

/-! ### Claim theorems -/

/-- C1: evaluation of the code at the zero-successful-samples boundary.  A
header-only input stream produces no tasks, a run over no tasks emits no
samples, and the collector on an empty sample sequence produces no report:
`main` blocks forever at the initial `firstResult := <-results` receive
while `processCSV` blocks sending on `done`, so, contrary to the claim, the
program never reaches the summary (and had it reached the statistics code
with zero samples, `queryTimes[n/2-1]` and `total/count` would fault). -/
theorem no_samples_no_report :
    readTasks [["hostname", "start_time", "end_time"]] = Except.ok [] ∧
    (∀ (exec : QueryExecutor) (n : Nat), runOutputs exec [] n = []) ∧
    collect [] = none := by
  refine ⟨rfl, ?_, rfl⟩
  intro exec n
  simp [runOutputs, workerQueue, worker]

/-- C2: for every nonempty arrival sequence, the collector's final
`minQueryTime` is the least sample and `maxQueryTime` the greatest (so
min ≤ every sample ≤ max), despite the else-if max update that skips the
max comparison whenever a sample is below the current min. -/
theorem min_max_correct (firstResult : Int) (rest : List Int) :
    (collectLoop firstResult rest).minQueryTime ∈ firstResult :: rest ∧
    (collectLoop firstResult rest).maxQueryTime ∈ firstResult :: rest ∧
    ∀ x ∈ firstResult :: rest,
      (collectLoop firstResult rest).minQueryTime ≤ x ∧
      x ≤ (collectLoop firstResult rest).maxQueryTime := by
  obtain ⟨h1, h2, h3, h4, h5⟩ :=
    collectFold_spec rest (initState firstResult) (le_refl _)
  have hmin : (collectLoop firstResult rest).minQueryTime
      = rest.foldl min firstResult := by
    rw [collectLoop, h3]
    rfl
  have hmax : (collectLoop firstResult rest).maxQueryTime
      = rest.foldl max firstResult := by
    rw [collectLoop, h4]
    rfl
  rw [hmin, hmax]
  exact ⟨foldl_min_mem_cons rest firstResult, foldl_max_mem_cons rest firstResult,
    fun x hx => ⟨foldl_min_lb rest firstResult x hx,
      foldl_max_ub rest firstResult x hx⟩⟩

/-- C3: the reported median is computed from the retained samples sorted
ascending — for even length the truncated mean of the two central entries,
for odd length the central entry — and in particular the samples
`[100, 200, 300, 400]` yield median 250 and `[100, 200, 300]` yield 200. -/
theorem median_formula :
    (collect [100, 200, 300, 400]).map Report.medianQueryTime = some 250 ∧
    (collect [100, 200, 300]).map Report.medianQueryTime = some 200 ∧
    ∀ (firstResult : Int) (rest : List Int),
      (collect (firstResult :: rest)).map Report.medianQueryTime = some
        (if (sortedTimes (firstResult :: rest)).length % 2 = 0 then
          goDiv
            ((sortedTimes (firstResult :: rest)).getD
              ((sortedTimes (firstResult :: rest)).length / 2 - 1) 0 +
             (sortedTimes (firstResult :: rest)).getD
              ((sortedTimes (firstResult :: rest)).length / 2) 0) 2
        else
          (sortedTimes (firstResult :: rest)).getD
            ((sortedTimes (firstResult :: rest)).length / 2) 0) := by
  refine ⟨by decide, by decide, ?_⟩
  intro firstResult rest
  rw [collect_cons]
  rfl

/-- C4: partitioning is deterministic — the worker index for a task is the
pure function FNV-32a-hash-mod-N of its key and the pool size alone, so any
two tasks carrying equal keys (in one run or across runs with the same N)
are routed to the same worker index. -/
theorem partition_deterministic (t1 t2 : Task) (n : Nat) (hn : 1 ≤ n)
    (hkey : t1.hostname = t2.hostname) :
    chosenWorker t1.hostname n = chosenWorker t2.hostname n ∧
    chosenWorker t1.hostname n =
      Int.ofNat (fnv32a (strBytes t1.hostname) % n) := by
  constructor
  · rw [hkey]
  · rfl

/-- Witness for C4 at two distinct tasks sharing the key `"host_a"`. -/
theorem partition_deterministic_witness :
    chosenWorker "host_a" 3 = chosenWorker "host_a" 3 ∧
    chosenWorker "host_a" 3 = Int.ofNat (fnv32a (strBytes "host_a") % 3) :=
  partition_deterministic ⟨"host_a", "s1", "e1"⟩ ⟨"host_a", "s2", "e2"⟩ 3
    (by decide) rfl

/-- C5: count conservation — the reported query count equals the number of
input tasks whose execution succeeded, for any pool size and any order in
which the samples reach the collector. -/
theorem count_conservation (exec : QueryExecutor) (tasks : List Task)
    (n : Nat) (hn : 1 ≤ n) (arrivals : List Int)
    (harr : arrivals.Perm (runOutputs exec tasks n)) (rep : Report)
    (hrep : collect arrivals = some rep) :
    rep.count = (tasks.filter (fun t => (exec t).isSome)).length := by
  cases arrivals with
  | nil => exact absurd hrep (by simp [collect])
  | cons a t =>
    rw [collect_cons] at hrep
    have hcount : (a :: t).length = rep.count := by
      simpa using congrArg Report.count (Option.some.inj hrep)
    rw [← hcount, harr.length_eq, (runOutputs_perm exec tasks n hn).length_eq,
      length_filterMap_eq_length_filter]

/-- Witness for C5: one task, an always-successful executor, one worker. -/
theorem count_conservation_witness :
    ([5] : List Int).Perm
      (runOutputs (fun _ => some 5) [⟨"a", "s", "e"⟩] 1) ∧
    collect [5] = some ⟨1, 5, 5, 5, 5⟩ ∧
    (⟨1, 5, 5, 5, 5⟩ : Report).count =
      ([(⟨"a", "s", "e"⟩ : Task)].filter
        (fun t => ((fun _ => some 5 : QueryExecutor) t).isSome)).length :=
  ⟨by decide, by decide,
    count_conservation (fun _ => some 5) [⟨"a", "s", "e"⟩] 1 (by decide) [5]
      (by decide) ⟨1, 5, 5, 5, 5⟩ (by decide)⟩

/-- C6: worker-count invariance — for a fixed task sequence and executor,
the collector's report is the same for every pool size and every
interleaving in which the samples arrive: it depends only on the multiset
of samples. -/
theorem worker_count_invariance (exec : QueryExecutor) (tasks : List Task)
    (n1 n2 : Nat) (h1 : 1 ≤ n1) (h2 : 1 ≤ n2)
    (arrivals1 arrivals2 : List Int)
    (p1 : arrivals1.Perm (runOutputs exec tasks n1))
    (p2 : arrivals2.Perm (runOutputs exec tasks n2)) :
    collect arrivals1 = collect arrivals2 :=
  collect_perm_eq
    ((p1.trans (runOutputs_perm exec tasks n1 h1)).trans
      (p2.trans (runOutputs_perm exec tasks n2 h2)).symm)

/-- Witness for C6: three tasks over two hostnames; with one worker the
samples arrive as `[1, 2, 1]`, with two workers as `[1, 1, 2]`, and the
reports agree. -/
theorem worker_count_invariance_witness :
    ([1, 2, 1] : List Int).Perm
      (runOutputs (fun t => some (t.hostname.length : Int))
        [⟨"a", "s", "e"⟩, ⟨"bb", "s", "e"⟩, ⟨"a", "s", "e"⟩] 1) ∧
    ([1, 1, 2] : List Int).Perm
      (runOutputs (fun t => some (t.hostname.length : Int))
        [⟨"a", "s", "e"⟩, ⟨"bb", "s", "e"⟩, ⟨"a", "s", "e"⟩] 2) ∧
    collect [1, 2, 1] = collect [1, 1, 2] :=
  ⟨by decide, by decide,
    worker_count_invariance (fun t => some (t.hostname.length : Int))
      [⟨"a", "s", "e"⟩, ⟨"bb", "s", "e"⟩, ⟨"a", "s", "e"⟩] 1 2 (by decide)
      (by decide) [1, 2, 1] [1, 1, 2] (by decide) (by decide)⟩

/-- C7: per-query failure isolation — a task on which the executor errors
contributes no sample, and the worker continues with the rest of its queue
exactly as if the failed task were absent; the loop never aborts. -/
theorem failure_isolation (exec : QueryExecutor) (q : Task)
    (rest : List Task) (hfail : exec q = none) :
    worker exec (q :: rest) = worker exec rest := by
  simp [worker, hfail]

/-- Witness for C7: a task whose query fails, followed by one that
succeeds; the failing task is skipped and the run goes on. -/
theorem failure_isolation_witness :
    (fun t => if t.hostname = "bad" then none else some 1 : QueryExecutor)
        ⟨"bad", "s", "e"⟩ = none ∧
    worker (fun t => if t.hostname = "bad" then none else some 1)
        [⟨"bad", "s", "e"⟩, ⟨"ok", "s", "e"⟩] =
      worker (fun t => if t.hostname = "bad" then none else some 1)
        [⟨"ok", "s", "e"⟩] :=
  ⟨by decide,
    failure_isolation (fun t => if t.hostname = "bad" then none else some 1)
      ⟨"bad", "s", "e"⟩ [⟨"ok", "s", "e"⟩] (by decide)⟩

/-- C8: collector consistency invariant — after any number of loop
iterations the retained list holds the samples in arrival order, the
reported count is its length, the running total is its sum, and the running
min and max are elements of it with min ≤ max. -/
theorem collector_invariant (firstResult : Int) (rest : List Int) :
    (collectLoop firstResult rest).queryTimes = firstResult :: rest ∧
    (collect (firstResult :: rest)).map Report.count =
      some (collectLoop firstResult rest).queryTimes.length ∧
    (collectLoop firstResult rest).totalQueryTime =
      (collectLoop firstResult rest).queryTimes.sum ∧
    (collectLoop firstResult rest).minQueryTime ∈
      (collectLoop firstResult rest).queryTimes ∧
    (collectLoop firstResult rest).maxQueryTime ∈
      (collectLoop firstResult rest).queryTimes ∧
    (collectLoop firstResult rest).minQueryTime ≤
      (collectLoop firstResult rest).maxQueryTime := by
  obtain ⟨h1, h2, h3, h4, h5⟩ :=
    collectFold_spec rest (initState firstResult) (le_refl _)
  have ht : (collectLoop firstResult rest).queryTimes = firstResult :: rest := by
    rw [collectLoop, h1]
    rfl
  have htot : (collectLoop firstResult rest).totalQueryTime =
      firstResult + rest.sum := by
    rw [collectLoop, h2]
    rfl
  have hmin : (collectLoop firstResult rest).minQueryTime
      = rest.foldl min firstResult := by
    rw [collectLoop, h3]
    rfl
  have hmax : (collectLoop firstResult rest).maxQueryTime
      = rest.foldl max firstResult := by
    rw [collectLoop, h4]
    rfl
  refine ⟨ht, rfl, ?_, ?_, ?_, ?_⟩
  · rw [htot, ht, List.sum_cons]
  · rw [hmin, ht]
    exact foldl_min_mem_cons rest firstResult
  · rw [hmax, ht]
    exact foldl_max_mem_cons rest firstResult
  · rw [hmin, hmax]
    exact le_trans (foldl_min_lb rest firstResult firstResult
        (List.mem_cons_self _ _))
      (foldl_max_ub rest firstResult firstResult (List.mem_cons_self _ _))

/-- C9: the dispatcher's worker index `int(fnv32a(hostname)) % numWorkers`
is non-negative and below the pool size whenever `numWorkers ≥ 1`, so the
indexing into the worker-queue array is in bounds. -/
theorem chosenWorker_in_bounds (hostname : String) (numWorkers : Nat)
    (h : 1 ≤ numWorkers) :
    0 ≤ chosenWorker hostname numWorkers ∧
    chosenWorker hostname numWorkers < Int.ofNat numWorkers := by
  rw [chosenWorker_eq_ofNat]
  exact ⟨Int.ofNat_nonneg _, Int.ofNat_lt.mpr (Nat.mod_lt _ h)⟩

/-- Witness for C9 at hostname `"host1"` and pool size 4. -/
theorem chosenWorker_in_bounds_witness :
    0 ≤ chosenWorker "host1" 4 ∧ chosenWorker "host1" 4 < Int.ofNat 4 :=
  chosenWorker_in_bounds "host1" 4 (by decide)

/-- C10: a completely empty input stream (no header line) makes the header
read fail, which is a fatal abort before any task is dispatched — no task
list is ever produced. -/
theorem empty_input_fatal :
    readTasks [] = Except.error "Error when reading CSV header" := rfl

end Bench
